import Mathlib

/-!
Verification of the byte-source layer of a CBOR decoder (`src/read.rs`).

The layer offers three backends behind one capability trait:
* `IoRead` — a streaming source over a sequential byte channel, with a
  one-byte pushback slot (`ch`), an owned scratch buffer, and an offset
  counter wrapped around the channel;
* `SliceRead` — an immutable in-memory byte region with a read cursor and
  an owned scratch buffer;
* `MutSliceRead` — a mutable in-memory byte region that compacts
  accumulated fragments in place with a left rotation instead of using an
  owned scratch buffer.

The embedding below models byte regions and channels as `List Nat`,
machine words (`usize`) as `Nat` with explicit checked arithmetic against
`2 ^ 64`, fallible operations as `Except Err _` paired with the resulting
state, and Rust panics (assertion failure, arithmetic underflow in debug
builds) as distinguished error values.
-/

namespace CborRead

/-- Size of the usize domain (64-bit platform); `checked_add` fails at or
beyond this bound. -/
def USIZE : Nat := 2 ^ 64

/-- Model of `usize::checked_add`. -/
def checkedAdd (a b : Nat) : Option Nat :=
  if a + b < USIZE then some (a + b) else none

/-- Error conditions the read layer can produce.
`eofWhileParsingValue` is `ErrorCode::EofWhileParsingValue` with the
offset attached at construction time; the two panic values model a Rust
debug-build integer underflow (`n -= 1` with `n = 0`) and the
`assert!` in `MutSliceRead::read_to_buffer`. -/
inductive Err where
  | eofWhileParsingValue (offset : Nat)
  | panicOverflow
  | panicAssert
deriving Repr, DecidableEq

/-- Decidable equality for `Except` results, so that concrete runs of the
model can be checked by evaluation. -/
instance exceptDecEq {ε α : Type} [DecidableEq ε] [DecidableEq α] :
    DecidableEq (Except ε α)
  | Except.ok a, Except.ok b =>
      if h : a = b then isTrue (by rw [h])
      else isFalse (fun hh => h (Except.ok.inj hh))
  | Except.ok _, Except.error _ => isFalse (fun hh => Except.noConfusion hh)
  | Except.error _, Except.ok _ => isFalse (fun hh => Except.noConfusion hh)
  | Except.error d, Except.error e =>
      if h : d = e then isTrue (by rw [h])
      else isFalse (fun hh => h (Except.error.inj hh))

/-- Result of `read_either` (`read_or_borrow` in the spec): either a
borrowed view of the bytes, or a marker that they were copied into the
scratch buffer. -/
inductive Reference where
  | borrowed (bytes : List Nat)
  | copied
deriving Repr, DecidableEq

/-- The operation alphabet of the byte-source capability, used to talk
about arbitrary call sequences (reachability, offset monotonicity).
`readFixed n` stands for `read_into` with an `n`-byte caller buffer,
`beginAcc` for `clear_buffer`, `accumulate` for `read_to_buffer`,
`viewAcc` for `view_buffer` and `offsetObs` for `offset` (the last two do
not change state). -/
inductive SrcOp where
  | next
  | peek
  | discard
  | readFixed (n : Nat)
  | beginAcc
  | accumulate (n : Nat)
  | viewAcc
  | readOrBorrow (n : Nat)
  | offsetObs
deriving Repr, DecidableEq

/-! ## SliceRead: the immutable buffer source -/

/-- State of `SliceRead`: the borrowed byte region, the owned scratch
buffer (std builds) and the read cursor. -/
structure SliceRead where
  slice : List Nat
  scratch : List Nat
  index : Nat
deriving Repr, DecidableEq

namespace SliceRead

/-- Constructor `SliceRead::new`. -/
def new (l : List Nat) : SliceRead := ⟨l, [], 0⟩

/-- Method `next`: consume and return the byte at the cursor, if any. -/
def next (s : SliceRead) : Option Nat × SliceRead :=
  if s.index < s.slice.length then
    (some (s.slice.getD s.index 0), { s with index := s.index + 1 })
  else (none, s)

/-- Method `peek`: return the byte at the cursor without consuming it. -/
def peek (s : SliceRead) : Option Nat × SliceRead :=
  if s.index < s.slice.length then (some (s.slice.getD s.index 0), s)
  else (none, s)

/-- Helper `SliceRead::end`: `index.checked_add(n)` guarded against the
region length; on failure the error carries the total region length. -/
def endIdx (s : SliceRead) (n : Nat) : Except Err Nat :=
  match checkedAdd s.index n with
  | some e =>
      if e ≤ s.slice.length then Except.ok e
      else Except.error (Err.eofWhileParsingValue s.slice.length)
  | none => Except.error (Err.eofWhileParsingValue s.slice.length)

/-- Method `clear_buffer`: truncate the scratch buffer. -/
def clear_buffer (s : SliceRead) : SliceRead := { s with scratch := [] }

/-- Method `read_to_buffer` (std build): append the next `n` region bytes
to the scratch buffer and advance the cursor. -/
def read_to_buffer (s : SliceRead) (n : Nat) : Except Err Unit × SliceRead :=
  match s.endIdx n with
  | Except.error e => (Except.error e, s)
  | Except.ok e =>
      (Except.ok (),
        { s with scratch := s.scratch ++ (s.slice.drop s.index).take n,
                 index := e })

/-- Method `read_either`: borrow the next `n` region bytes and advance the
cursor; never copies. -/
def read_either (s : SliceRead) (n : Nat) : Except Err Reference × SliceRead :=
  match s.endIdx n with
  | Except.error e => (Except.error e, s)
  | Except.ok e =>
      (Except.ok (Reference.borrowed ((s.slice.drop s.index).take n)),
        { s with index := e })

/-- Method `view_buffer`: current scratch buffer contents. -/
def view_buffer (s : SliceRead) : List Nat := s.scratch

/-- Method `read_into` with an `n`-byte caller buffer: copy the next `n`
region bytes out and advance the cursor; returns the filled buffer. -/
def read_into (s : SliceRead) (n : Nat) : Except Err (List Nat) × SliceRead :=
  match s.endIdx n with
  | Except.error e => (Except.error e, s)
  | Except.ok e =>
      (Except.ok ((s.slice.drop s.index).take n), { s with index := e })

/-- Method `discard`: unconditionally advance the cursor by one. -/
def discard (s : SliceRead) : SliceRead := { s with index := s.index + 1 }

/-- Method `offset`: the cursor position. -/
def offset (s : SliceRead) : Nat := s.index

/-- State transition of one capability operation (results discarded). -/
def run (s : SliceRead) : SrcOp → SliceRead
  | SrcOp.next => (s.next).2
  | SrcOp.peek => (s.peek).2
  | SrcOp.discard => s.discard
  | SrcOp.readFixed n => (s.read_into n).2
  | SrcOp.beginAcc => s.clear_buffer
  | SrcOp.accumulate n => (s.read_to_buffer n).2
  | SrcOp.viewAcc => s
  | SrcOp.readOrBorrow n => (s.read_either n).2
  | SrcOp.offsetObs => s

/-- State after a sequence of capability operations. -/
def runs (s : SliceRead) (ops : List SrcOp) : SliceRead := ops.foldl run s

end SliceRead

/-! ## MutSliceRead: the mutable buffer source -/

/-- In-place left rotation of the sub-region `[a, b)` of `l` by `k`
positions, leaving the rest of the list unchanged: the model of
`slice[a..b].rotate_left(k)`. -/
def rotateSeg (l : List Nat) (a b k : Nat) : List Nat :=
  l.take a ++ ((l.drop a).take (b - a)).rotate k ++ l.drop b

/-- State of `MutSliceRead`: the mutable byte region, the read cursor
`index`, and the accumulation window `[buffer_start, buffer_end)`. -/
structure MutSliceRead where
  slice : List Nat
  index : Nat
  buffer_start : Nat
  buffer_end : Nat
deriving Repr, DecidableEq

namespace MutSliceRead

/-- Constructor `MutSliceRead::new`. -/
def new (l : List Nat) : MutSliceRead := ⟨l, 0, 0, 0⟩

/-- Method `next`: consume and return the byte at the cursor, if any. -/
def next (s : MutSliceRead) : Option Nat × MutSliceRead :=
  if s.index < s.slice.length then
    (some (s.slice.getD s.index 0), { s with index := s.index + 1 })
  else (none, s)

/-- Method `peek`: return the byte at the cursor without consuming it. -/
def peek (s : MutSliceRead) : Option Nat × MutSliceRead :=
  if s.index < s.slice.length then (some (s.slice.getD s.index 0), s)
  else (none, s)

/-- Helper `MutSliceRead::end`: `index.checked_add(n)` guarded against the
region length; on failure the error carries the total region length. -/
def endIdx (s : MutSliceRead) (n : Nat) : Except Err Nat :=
  match checkedAdd s.index n with
  | some e =>
      if e ≤ s.slice.length then Except.ok e
      else Except.error (Err.eofWhileParsingValue s.slice.length)
  | none => Except.error (Err.eofWhileParsingValue s.slice.length)

/-- Method `clear_buffer`: collapse the accumulation window to the
cursor. -/
def clear_buffer (s : MutSliceRead) : MutSliceRead :=
  { s with buffer_start := s.index, buffer_end := s.index }

/-- Method `read_to_buffer`: after the bounds check and the
`assert!(buffer_end <= index)`, rotate `[buffer_end, end)` left by
`index - buffer_end` so the fragment `[index, end)` lands right after the
accumulation window, then extend the window by `n` and advance the
cursor. -/
def read_to_buffer (s : MutSliceRead) (n : Nat) : Except Err Unit × MutSliceRead :=
  match s.endIdx n with
  | Except.error e => (Except.error e, s)
  | Except.ok e =>
      if s.buffer_end ≤ s.index then
        (Except.ok (),
          { s with slice := rotateSeg s.slice s.buffer_end e (s.index - s.buffer_end),
                   buffer_end := s.buffer_end + n,
                   index := e })
      else (Except.error Err.panicAssert, s)

/-- Method `read_either`: borrow the next `n` region bytes, advance the
cursor, and collapse the accumulation window to the new cursor (which is
what extends the immutability promise over the borrowed range). -/
def read_either (s : MutSliceRead) (n : Nat) : Except Err Reference × MutSliceRead :=
  match s.endIdx n with
  | Except.error e => (Except.error e, s)
  | Except.ok e =>
      (Except.ok (Reference.borrowed ((s.slice.drop s.index).take n)),
        { s with index := e, buffer_start := e, buffer_end := e })

/-- Method `view_buffer`: the accumulation window
`[buffer_start, buffer_end)` of the region. -/
def view_buffer (s : MutSliceRead) : List Nat :=
  (s.slice.drop s.buffer_start).take (s.buffer_end - s.buffer_start)

/-- Method `read_into` with an `n`-byte caller buffer: copy the next `n`
region bytes out and advance the cursor; returns the filled buffer. -/
def read_into (s : MutSliceRead) (n : Nat) : Except Err (List Nat) × MutSliceRead :=
  match s.endIdx n with
  | Except.error e => (Except.error e, s)
  | Except.ok e =>
      (Except.ok ((s.slice.drop s.index).take n), { s with index := e })

/-- Method `discard`: unconditionally advance the cursor by one. -/
def discard (s : MutSliceRead) : MutSliceRead := { s with index := s.index + 1 }

/-- Iterated `discard`. -/
def discardN (s : MutSliceRead) : Nat → MutSliceRead
  | 0 => s
  | d + 1 => (s.discard).discardN d

/-- Method `offset`: the cursor position. -/
def offset (s : MutSliceRead) : Nat := s.index

/-- State transition of one capability operation (results discarded). -/
def run (s : MutSliceRead) : SrcOp → MutSliceRead
  | SrcOp.next => (s.next).2
  | SrcOp.peek => (s.peek).2
  | SrcOp.discard => s.discard
  | SrcOp.readFixed n => (s.read_into n).2
  | SrcOp.beginAcc => s.clear_buffer
  | SrcOp.accumulate n => (s.read_to_buffer n).2
  | SrcOp.viewAcc => s
  | SrcOp.readOrBorrow n => (s.read_either n).2
  | SrcOp.offsetObs => s

/-- State after a sequence of capability operations. -/
def runs (s : MutSliceRead) (ops : List SrcOp) : MutSliceRead := ops.foldl run s

/-- The documented invariant of the mutable buffer source. -/
def Inv (s : MutSliceRead) : Prop :=
  s.buffer_start ≤ s.buffer_end ∧ s.buffer_end ≤ s.index ∧
    s.index ≤ s.slice.length

instance (s : MutSliceRead) : Decidable s.Inv := by
  unfold Inv; infer_instance

end MutSliceRead

/-! ## IoRead: the streaming source -/

/-- Argument the streaming backend passes to `Vec::reserve` before
filling the scratch buffer: `cmp::min(n, 16 * 1024)`. -/
def reserveRequest (n : Nat) : Nat := min n (16 * 1024)

/-- State of `IoRead`: the bytes the channel will still yield, the
offset counter of the `OffsetReader` wrapper (bytes physically consumed
from the channel), the scratch buffer with its tracked capacity, and the
one-byte pushback slot `ch`. The channel is modelled as a pure byte list;
`Vec` capacity is modelled minimally: a reservation guarantees exactly
the requested room, and growth on push raises the capacity to the new
length when needed. -/
structure IoRead where
  input : List Nat
  offset : Nat
  scratch : List Nat
  scratchCap : Nat
  ch : Option Nat
deriving Repr, DecidableEq

namespace IoRead

/-- Constructor `IoRead::new`. -/
def new (l : List Nat) : IoRead := ⟨l, 0, [], 0, none⟩

/-- Number of bytes held in the pushback slot (0 or 1). -/
def chCount (s : IoRead) : Nat :=
  match s.ch with
  | some _ => 1
  | none => 0

/-- The pushback slot as a list (empty or a singleton). -/
def chList (s : IoRead) : List Nat :=
  match s.ch with
  | some c => [c]
  | none => []

/-- Bytes still logically available: the pushback byte plus the channel
remainder. -/
def remaining (s : IoRead) : Nat := s.chCount + s.input.length

/-- The logical read position: bytes physically consumed minus the byte
still pending in the pushback slot. -/
def pos (s : IoRead) : Nat := s.offset - s.chCount

/-- Helper `next_inner`: pull one byte from the channel, counting it in
the offset; `None` at end of channel. -/
def next_inner (s : IoRead) : Option Nat × IoRead :=
  match s.input with
  | [] => (none, s)
  | b :: rest => (some b, { s with input := rest, offset := s.offset + 1 })

/-- Method `next`: take the pushback byte if present, else pull from the
channel. -/
def next (s : IoRead) : Option Nat × IoRead :=
  match s.ch with
  | some c => (some c, { s with ch := none })
  | none => s.next_inner

/-- Method `peek`: return the pushback byte if present, else pull one
byte from the channel and park it in the pushback slot. -/
def peek (s : IoRead) : Option Nat × IoRead :=
  match s.ch with
  | some c => (some c, s)
  | none =>
      match s.next_inner with
      | (r, s1) => (r, { s1 with ch := r })

/-- Method `read_to_buffer`: reserve `min n 16384` extra capacity, count
a pending pushback byte toward `n` (pushing it into the scratch buffer;
with `n = 0` the `n -= 1` underflows, a debug-build panic), then transfer
up to the remaining `n` bytes from the channel into the scratch buffer,
failing with end-of-input when the channel yields fewer. -/
def read_to_buffer (s : IoRead) (n : Nat) : Except Err Unit × IoRead :=
  let s0 : IoRead :=
    { s with scratchCap := max s.scratchCap (s.scratch.length + reserveRequest n) }
  match s0.ch with
  | some c =>
      let s1 : IoRead :=
        { s0 with ch := none, scratch := s0.scratch ++ [c],
                  scratchCap := max s0.scratchCap (s0.scratch.length + 1) }
      if n = 0 then (Except.error Err.panicOverflow, s1)
      else transfer s1 (n - 1)
  | none => transfer s0 n
where
  /-- The `take(n).read_to_end(&mut scratch)` transfer step plus the
  final count check. -/
  transfer (s1 : IoRead) (m : Nat) : Except Err Unit × IoRead :=
    let got := s1.input.take m
    let s2 : IoRead :=
      { s1 with input := s1.input.drop m, offset := s1.offset + got.length,
                scratch := s1.scratch ++ got,
                scratchCap := max s1.scratchCap (s1.scratch.length + got.length) }
    if got.length = m then (Except.ok (), s2)
    else (Except.error (Err.eofWhileParsingValue s2.offset), s2)

/-- Method `clear_buffer`: truncate the scratch buffer (capacity is
kept, as with `Vec::clear`). -/
def clear_buffer (s : IoRead) : IoRead := { s with scratch := [] }

/-- Method `read_either`: clear the scratch buffer, accumulate `n`
bytes, and report `Copied`; a channel cannot be borrowed from. -/
def read_either (s : IoRead) (n : Nat) : Except Err Reference × IoRead :=
  match s.clear_buffer.read_to_buffer n with
  | (Except.ok _, s1) => (Except.ok Reference.copied, s1)
  | (Except.error e, s1) => (Except.error e, s1)

/-- Method `view_buffer`: current scratch buffer contents. -/
def view_buffer (s : IoRead) : List Nat := s.scratch

/-- Method `read_into` with an `n`-byte caller buffer: `read_exact`
straight from the channel (bypassing the pushback slot), consuming
whatever remains and failing with end-of-input when fewer than `n` bytes
are left. -/
def read_into (s : IoRead) (n : Nat) : Except Err (List Nat) × IoRead :=
  let got := s.input.take n
  let s1 : IoRead :=
    { s with input := s.input.drop n, offset := s.offset + got.length }
  if got.length = n then (Except.ok got, s1)
  else (Except.error (Err.eofWhileParsingValue s1.offset), s1)

/-- Method `discard`: drop the pushback byte. -/
def discard (s : IoRead) : IoRead := { s with ch := none }

/-- State transition of one capability operation (results discarded). -/
def run (s : IoRead) : SrcOp → IoRead
  | SrcOp.next => (s.next).2
  | SrcOp.peek => (s.peek).2
  | SrcOp.discard => s.discard
  | SrcOp.readFixed n => (s.read_into n).2
  | SrcOp.beginAcc => s.clear_buffer
  | SrcOp.accumulate n => (s.read_to_buffer n).2
  | SrcOp.viewAcc => s
  | SrcOp.readOrBorrow n => (s.read_either n).2
  | SrcOp.offsetObs => s

/-- State after a sequence of capability operations. -/
def runs (s : IoRead) (ops : List SrcOp) : IoRead := ops.foldl run s

end IoRead

/-! ## Properties of the in-place rotation -/

/-- Rotating a sub-region in bounds does not change the region length. -/
theorem rotateSeg_length {l : List Nat} {a b : Nat} (k : Nat)
    (hab : a ≤ b) (hb : b ≤ l.length) :
    (rotateSeg l a b k).length = l.length := by
  simp only [rotateSeg, List.length_append, List.length_rotate,
    List.length_take, List.length_drop]
  omega

/-- Rotating the sub-region `[a, b)` leaves the prefix `[0, a)`
untouched. -/
theorem rotateSeg_take_prefix {l : List Nat} {a : Nat} (b k : Nat)
    (ha : a ≤ l.length) :
    (rotateSeg l a b k).take a = l.take a := by
  unfold rotateSeg
  rw [List.append_assoc, List.take_left']
  simp only [List.length_take]
  omega

/-- Rotating the sub-region `[a, e)` left by `i - a` (for
`a ≤ i ≤ e ≤ |l|`) places the bytes formerly at `[i, e)` at `[a, a + (e - i))`. -/
theorem rotateSeg_window {l : List Nat} {a i e : Nat}
    (hai : a ≤ i) (hie : i ≤ e) (he : e ≤ l.length) :
    ((rotateSeg l a e (i - a)).drop a).take (e - i) = (l.drop i).take (e - i) := by
  have hseg : ((l.drop a).take (e - a)).length = e - a := by
    simp only [List.length_take, List.length_drop]
    omega
  have hrot : ((l.drop a).take (e - a)).rotate (i - a)
      = ((l.drop a).take (e - a)).drop (i - a)
        ++ ((l.drop a).take (e - a)).take (i - a) :=
    List.rotate_eq_drop_append_take (by rw [hseg]; omega)
  have hlen2 : (((l.drop a).take (e - a)).drop (i - a)).length = e - i := by
    simp only [List.length_drop, hseg]
    omega
  unfold rotateSeg
  rw [List.append_assoc,
    List.drop_left' (by simp only [List.length_take, List.length_drop]; omega),
    hrot, List.append_assoc, List.take_left' hlen2, List.drop_take,
    List.drop_drop]
  have h1 : a + (i - a) = i := by omega
  have h2 : e - a - (i - a) = e - i := by omega
  rw [h1, h2]

/-- Specialization of `rotateSeg_window` to a window of length `n`
starting at the cursor. -/
theorem rotateSeg_window_n {l : List Nat} {a i n : Nat}
    (hai : a ≤ i) (he : i + n ≤ l.length) :
    ((rotateSeg l a (i + n) (i - a)).drop a).take n = (l.drop i).take n := by
  have h := rotateSeg_window (l := l) (a := a) (i := i) (e := i + n)
    hai (by omega) he
  simpa using h

namespace MutSliceRead

/-- The bounds check succeeds exactly when the request fits. -/
theorem endIdx_ok_mut (s : MutSliceRead) (n : Nat)
    (hfit : s.index + n ≤ s.slice.length) (hus : s.slice.length < USIZE) :
    s.endIdx n = Except.ok (s.index + n) := by
  unfold endIdx checkedAdd
  rw [if_pos (by omega)]
  simp [hfit]

/-- The bounds check fails with the end-of-input error (carrying the
region length) exactly when the request does not fit. -/
theorem endIdx_err_mut (s : MutSliceRead) (n : Nat)
    (hfit : s.slice.length < s.index + n) :
    s.endIdx n = Except.error (Err.eofWhileParsingValue s.slice.length) := by
  unfold endIdx checkedAdd
  by_cases h : s.index + n < USIZE
  · rw [if_pos h]
    simp
    omega
  · rw [if_neg h]

/-- Full characterization of a successful `read_to_buffer` on the mutable
buffer source: it succeeds, extends the accumulation window by `n`,
advances the cursor by `n`, preserves the region length and the prefix up
to the old window end, and the `n` bytes right after the old window end
are the bytes that sat at the old cursor. -/
theorem read_to_buffer_spec (s : MutSliceRead) (n : Nat)
    (hbi : s.buffer_end ≤ s.index) (hfit : s.index + n ≤ s.slice.length)
    (hus : s.slice.length < USIZE) :
    (s.read_to_buffer n).1 = Except.ok () ∧
    (s.read_to_buffer n).2.slice.length = s.slice.length ∧
    (s.read_to_buffer n).2.index = s.index + n ∧
    (s.read_to_buffer n).2.buffer_start = s.buffer_start ∧
    (s.read_to_buffer n).2.buffer_end = s.buffer_end + n ∧
    (s.read_to_buffer n).2.slice.take s.buffer_end = s.slice.take s.buffer_end ∧
    ((s.read_to_buffer n).2.slice.drop s.buffer_end).take n
      = (s.slice.drop s.index).take n := by
  unfold read_to_buffer
  rw [endIdx_ok_mut s n hfit hus]
  dsimp only
  rw [if_pos hbi]
  refine ⟨rfl, ?_, rfl, rfl, rfl, ?_, ?_⟩
  · exact rotateSeg_length _ (by omega) hfit
  · exact rotateSeg_take_prefix _ _ (by omega)
  · exact rotateSeg_window_n hbi hfit

/-- Iterated `discard` adds to the cursor and changes nothing else. -/
theorem discardN_spec (s : MutSliceRead) (d : Nat) :
    s.discardN d = { s with index := s.index + d } := by
  induction d generalizing s with
  | zero => rfl
  | succ d ih =>
      show (s.discard).discardN d = _
      rw [ih]
      unfold discard
      dsimp only
      congr 1
      omega

end MutSliceRead

namespace SliceRead

/-- The bounds check succeeds exactly when the request fits. -/
theorem endIdx_ok_sl (s : SliceRead) (n : Nat)
    (hfit : s.index + n ≤ s.slice.length) (hus : s.slice.length < USIZE) :
    s.endIdx n = Except.ok (s.index + n) := by
  unfold endIdx checkedAdd
  rw [if_pos (by omega)]
  simp [hfit]

/-- The bounds check fails with the end-of-input error (carrying the
region length) exactly when the request does not fit. -/
theorem endIdx_err_sl (s : SliceRead) (n : Nat)
    (hfit : s.slice.length < s.index + n) :
    s.endIdx n = Except.error (Err.eofWhileParsingValue s.slice.length) := by
  unfold endIdx checkedAdd
  by_cases h : s.index + n < USIZE
  · rw [if_pos h]
    simp
    omega
  · rw [if_neg h]

/-- The bounds check fails when the cursor-plus-request sum overflows the
machine word, regardless of the region length. -/
theorem endIdx_overflow_sl (s : SliceRead) (n : Nat) (h : USIZE ≤ s.index + n) :
    s.endIdx n = Except.error (Err.eofWhileParsingValue s.slice.length) := by
  unfold endIdx checkedAdd
  rw [if_neg (by omega)]

end SliceRead

namespace MutSliceRead

/-- The bounds check fails when the cursor-plus-request sum overflows the
machine word, regardless of the region length. -/
theorem endIdx_overflow_mut (s : MutSliceRead) (n : Nat) (h : USIZE ≤ s.index + n) :
    s.endIdx n = Except.error (Err.eofWhileParsingValue s.slice.length) := by
  unfold endIdx checkedAdd
  rw [if_neg (by omega)]

end MutSliceRead

namespace IoRead

/-- The channel-transfer step when the channel holds too few bytes: the
whole remaining channel is consumed into the scratch buffer, the offset
advances by that amount, and the end-of-input error carries the advanced
offset. -/
theorem transfer_short (s1 : IoRead) (m : Nat) (h : s1.input.length < m) :
    read_to_buffer.transfer s1 m
      = (Except.error (Err.eofWhileParsingValue (s1.offset + s1.input.length)),
         { s1 with input := [], offset := s1.offset + s1.input.length,
                   scratch := s1.scratch ++ s1.input,
                   scratchCap :=
                     max s1.scratchCap (s1.scratch.length + s1.input.length) }) := by
  unfold read_to_buffer.transfer
  dsimp only
  rw [List.take_of_length_le (by omega), List.drop_of_length_le (by omega)]
  rw [if_neg (by omega)]

/-- The channel-transfer step when the channel holds enough bytes: the
first `m` channel bytes move into the scratch buffer and the offset
advances by `m`. -/
theorem transfer_ok (s1 : IoRead) (m : Nat) (h : m ≤ s1.input.length) :
    read_to_buffer.transfer s1 m
      = (Except.ok (),
         { s1 with input := s1.input.drop m, offset := s1.offset + m,
                   scratch := s1.scratch ++ s1.input.take m,
                   scratchCap := max s1.scratchCap (s1.scratch.length + m) }) := by
  unfold read_to_buffer.transfer
  have hlen : (s1.input.take m).length = m := by
    simp only [List.length_take]
    omega
  dsimp only
  rw [hlen, if_pos rfl]

/-- With an empty pushback slot, `read_to_buffer` is the reservation
followed by a transfer of all `n` bytes. -/
theorem read_to_buffer_eq_none (s : IoRead) (n : Nat) (hch : s.ch = none) :
    s.read_to_buffer n
      = read_to_buffer.transfer
          { s with scratchCap := max s.scratchCap (s.scratch.length + reserveRequest n) } n := by
  unfold read_to_buffer
  dsimp only
  rw [hch]

/-- With a pending pushback byte and `n ≥ 1`, `read_to_buffer` pushes the
pushback byte into the scratch buffer and transfers the remaining `n - 1`
bytes. -/
theorem read_to_buffer_eq_some (s : IoRead) (n c : Nat) (hch : s.ch = some c)
    (hn : n ≠ 0) :
    s.read_to_buffer n
      = read_to_buffer.transfer
          { s with ch := none, scratch := s.scratch ++ [c],
                   scratchCap := max (max s.scratchCap (s.scratch.length + reserveRequest n)) (s.scratch.length + 1) }
          (n - 1) := by
  unfold read_to_buffer
  dsimp only
  rw [hch]
  dsimp only
  rw [if_neg hn]

/-- With a pending pushback byte, `read_to_buffer 0` still pushes the
byte into the scratch buffer and then underflows `n -= 1`: a debug-build
panic. -/
theorem read_to_buffer_zero_some (s : IoRead) (c : Nat) (hch : s.ch = some c) :
    s.read_to_buffer 0
      = (Except.error Err.panicOverflow,
         { s with ch := none, scratch := s.scratch ++ [c],
                  scratchCap := max (max s.scratchCap (s.scratch.length + reserveRequest 0)) (s.scratch.length + 1) }) := by
  unfold read_to_buffer
  dsimp only
  rw [hch]
  dsimp only
  rw [if_pos rfl]

end IoRead

namespace SliceRead

/-- Inversion of a successful bounds check. -/
theorem endIdx_ok_inv_sl {s : SliceRead} {n e : Nat} (h : s.endIdx n = Except.ok e) :
    e = s.index + n ∧ e ≤ s.slice.length := by
  unfold endIdx checkedAdd at h
  by_cases hlt : s.index + n < USIZE
  · rw [if_pos hlt] at h
    dsimp only at h
    by_cases hle : s.index + n ≤ s.slice.length
    · rw [if_pos hle] at h
      cases h
      exact ⟨rfl, hle⟩
    · rw [if_neg hle] at h
      cases h
  · rw [if_neg hlt] at h
    cases h

end SliceRead

namespace MutSliceRead

/-- Inversion of a successful bounds check. -/
theorem endIdx_ok_inv_mut {s : MutSliceRead} {n e : Nat} (h : s.endIdx n = Except.ok e) :
    e = s.index + n ∧ e ≤ s.slice.length := by
  unfold endIdx checkedAdd at h
  by_cases hlt : s.index + n < USIZE
  · rw [if_pos hlt] at h
    dsimp only at h
    by_cases hle : s.index + n ≤ s.slice.length
    · rw [if_pos hle] at h
      cases h
      exact ⟨rfl, hle⟩
    · rw [if_neg hle] at h
      cases h
  · rw [if_neg hlt] at h
    cases h

end MutSliceRead

namespace IoRead

/-- `read_into` with a request exceeding the channel remainder: the whole
remainder is consumed, the offset advances by its length, and the error
carries the advanced offset. -/
theorem read_into_short (s : IoRead) (n : Nat) (h : s.input.length < n) :
    s.read_into n
      = (Except.error (Err.eofWhileParsingValue (s.offset + s.input.length)),
         { s with input := [], offset := s.offset + s.input.length }) := by
  unfold read_into
  dsimp only
  rw [List.take_of_length_le (by omega), List.drop_of_length_le (by omega)]
  rw [if_neg (by omega)]

/-- `read_into` with a request the channel can satisfy: the first `n`
channel bytes are returned and the offset advances by `n`; the pushback
slot is untouched. -/
theorem read_into_ok (s : IoRead) (n : Nat) (h : n ≤ s.input.length) :
    s.read_into n
      = (Except.ok (s.input.take n),
         { s with input := s.input.drop n, offset := s.offset + n }) := by
  unfold read_into
  dsimp only
  have hlen : (s.input.take n).length = n := by
    simp only [List.length_take]
    omega
  rw [hlen, if_pos rfl]

/-- `read_to_buffer` with a request exceeding what remains (pushback byte
plus channel): it fails with end-of-input, but only after consuming the
whole channel remainder — the offset advances accordingly. -/
theorem read_to_buffer_short (s : IoRead) (n : Nat) (h : s.remaining < n) :
    (s.read_to_buffer n).1
      = Except.error (Err.eofWhileParsingValue (s.offset + s.input.length)) ∧
    (s.read_to_buffer n).2.offset = s.offset + s.input.length := by
  rcases hch : s.ch with _ | c
  · have hlen : s.input.length < n := by
      simp [remaining, chCount, hch] at h
      omega
    rw [read_to_buffer_eq_none s n hch,
      transfer_short _ n (by dsimp only; omega)]
    exact ⟨rfl, rfl⟩
  · have hn : n ≠ 0 := by
      simp [remaining, chCount, hch] at h
      omega
    have hlen : s.input.length < n - 1 := by
      simp [remaining, chCount, hch] at h
      omega
    rw [read_to_buffer_eq_some s n c hch hn,
      transfer_short _ (n - 1) (by dsimp only; omega)]
    exact ⟨rfl, rfl⟩

/-- The pushback-slot list is as long as the pushback-slot count. -/
theorem chList_length (s : IoRead) : s.chList.length = s.chCount := by
  unfold chList chCount
  cases s.ch <;> rfl

/-- `read_to_buffer` with a satisfiable request (`n` at most the pending
pushback byte plus the channel remainder, and `n ≥ 1` whenever a pushback
byte is pending): it succeeds, appends exactly the next `n` logical bytes
(pushback first) to the scratch buffer, and advances the offset by the
number of channel bytes consumed. -/
theorem read_to_buffer_ok_parts (s : IoRead) (n : Nat)
    (hn : s.ch.isSome = true → 1 ≤ n) (h : n ≤ s.remaining) :
    (s.read_to_buffer n).1 = Except.ok () ∧
    (s.read_to_buffer n).2.scratch
      = s.scratch ++ (s.chList ++ s.input).take n ∧
    (s.read_to_buffer n).2.offset = s.offset + (n - s.chCount) := by
  have hrem := h
  unfold remaining at hrem
  rcases hch : s.ch with _ | c
  · have hcc : s.chCount = 0 := by unfold chCount; rw [hch]
    rw [read_to_buffer_eq_none s n hch, transfer_ok _ n (by dsimp only; omega)]
    refine ⟨rfl, ?_, ?_⟩
    · dsimp only
      unfold chList
      rw [hch]
      rfl
    · dsimp only
      omega
  · have hcc : s.chCount = 1 := by unfold chCount; rw [hch]
    have hn1 : n ≠ 0 := by
      have := hn (by rw [hch]; rfl)
      omega
    obtain ⟨m, rfl⟩ : ∃ m, n = m + 1 := ⟨n - 1, by omega⟩
    rw [read_to_buffer_eq_some s (m + 1) c hch hn1,
      transfer_ok _ (m + 1 - 1) (by dsimp only; omega)]
    refine ⟨rfl, ?_, ?_⟩
    · dsimp only
      unfold chList
      rw [hch]
      show s.scratch ++ [c] ++ s.input.take m = s.scratch ++ ([c] ++ s.input).take (m + 1)
      rw [List.singleton_append, List.take_succ_cons, List.append_assoc,
        List.singleton_append]
    · dsimp only
      omega

/-- Failure-path capacity bound for `read_to_buffer`: when the request
cannot be satisfied, the scratch capacity never grows beyond the old
capacity, or the old contents plus the fixed 16 KiB reservation cap, or
the old contents plus what actually remained — never proportionally to
the requested `n`. -/
theorem read_to_buffer_short_cap (s : IoRead) (n : Nat) (h : s.remaining < n) :
    (s.read_to_buffer n).2.scratchCap
      ≤ max s.scratchCap (s.scratch.length + max (16 * 1024) s.remaining) := by
  have hrr : reserveRequest n ≤ 16 * 1024 := by unfold reserveRequest; omega
  have hrem := h
  unfold remaining at hrem
  rcases hch : s.ch with _ | c
  · have hcc : s.chCount = 0 := by unfold chCount; rw [hch]
    rw [read_to_buffer_eq_none s n hch,
      transfer_short _ n (by dsimp only; omega)]
    dsimp only
    unfold remaining
    omega
  · have hcc : s.chCount = 1 := by unfold chCount; rw [hch]
    have hn1 : n ≠ 0 := by omega
    rw [read_to_buffer_eq_some s n c hch hn1,
      transfer_short _ (n - 1) (by dsimp only; omega)]
    dsimp only
    unfold remaining
    simp only [List.length_append, List.length_cons, List.length_nil]
    omega

/-- The state component of `read_either` is that of the cleared-buffer
`read_to_buffer`, on both success and failure. -/
theorem read_either_state (s : IoRead) (n : Nat) :
    (s.read_either n).2 = ((s.clear_buffer).read_to_buffer n).2 := by
  unfold read_either
  rcases hres : (s.clear_buffer).read_to_buffer n with ⟨r, s1⟩
  cases r <;> rfl

/-- `read_either` inherits the short-read behaviour of
`read_to_buffer`. -/
theorem read_either_short (s : IoRead) (n : Nat) (h : s.remaining < n) :
    (s.read_either n).1
      = Except.error (Err.eofWhileParsingValue (s.offset + s.input.length)) ∧
    (s.read_either n).2.offset = s.offset + s.input.length := by
  have hrem : (s.clear_buffer).remaining < n := by
    simp only [clear_buffer, remaining, chCount] at h ⊢
    exact h
  have h1 := (read_to_buffer_short (s.clear_buffer) n hrem).1
  have h2 := (read_to_buffer_short (s.clear_buffer) n hrem).2
  unfold read_either
  rcases hres : (s.clear_buffer).read_to_buffer n with ⟨r, s1⟩
  rw [hres] at h1 h2
  dsimp only at h1 h2
  subst h1
  exact ⟨rfl, h2⟩

end IoRead

namespace SliceRead

/-- Every single operation leaves the offset no smaller. -/
theorem offset_run_le_sl (s : SliceRead) (op : SrcOp) :
    s.offset ≤ (s.run op).offset := by
  cases op with
  | next =>
      unfold run next offset
      by_cases h : s.index < s.slice.length
      · rw [if_pos h]
        dsimp only
        omega
      · rw [if_neg h]
  | peek =>
      unfold run peek offset
      by_cases h : s.index < s.slice.length
      · rw [if_pos h]
      · rw [if_neg h]
  | discard => exact Nat.le_succ _
  | readFixed n =>
      unfold run read_into offset
      dsimp only
      cases hres : s.endIdx n with
      | error e =>
          dsimp only
          omega
      | ok e =>
          obtain ⟨he, _⟩ := endIdx_ok_inv_sl hres
          dsimp only
          omega
  | beginAcc => exact Nat.le_refl _
  | accumulate n =>
      unfold run read_to_buffer offset
      dsimp only
      cases hres : s.endIdx n with
      | error e =>
          dsimp only
          omega
      | ok e =>
          obtain ⟨he, _⟩ := endIdx_ok_inv_sl hres
          dsimp only
          omega
  | viewAcc => exact Nat.le_refl _
  | readOrBorrow n =>
      unfold run read_either offset
      dsimp only
      cases hres : s.endIdx n with
      | error e =>
          dsimp only
          omega
      | ok e =>
          obtain ⟨he, _⟩ := endIdx_ok_inv_sl hres
          dsimp only
          omega
  | offsetObs => exact Nat.le_refl _

/-- Offset monotonicity over arbitrary operation sequences. -/
theorem offset_runs_le_sl (s : SliceRead) (ops : List SrcOp) :
    s.offset ≤ (s.runs ops).offset := by
  induction ops generalizing s with
  | nil => exact Nat.le_refl _
  | cons op ops ih =>
      exact Nat.le_trans (offset_run_le_sl s op) (ih (s.run op))

end SliceRead

namespace MutSliceRead

/-- Every single operation leaves the offset no smaller. -/
theorem offset_run_le_mut (s : MutSliceRead) (op : SrcOp) :
    s.offset ≤ (s.run op).offset := by
  cases op with
  | next =>
      unfold run next offset
      by_cases h : s.index < s.slice.length
      · rw [if_pos h]
        dsimp only
        omega
      · rw [if_neg h]
  | peek =>
      unfold run peek offset
      by_cases h : s.index < s.slice.length
      · rw [if_pos h]
      · rw [if_neg h]
  | discard => exact Nat.le_succ _
  | readFixed n =>
      unfold run read_into offset
      dsimp only
      cases hres : s.endIdx n with
      | error e =>
          dsimp only
          omega
      | ok e =>
          obtain ⟨he, _⟩ := endIdx_ok_inv_mut hres
          dsimp only
          omega
  | beginAcc => exact Nat.le_refl _
  | accumulate n =>
      unfold run read_to_buffer offset
      dsimp only
      cases hres : s.endIdx n with
      | error e =>
          dsimp only
          omega
      | ok e =>
          obtain ⟨he, _⟩ := endIdx_ok_inv_mut hres
          dsimp only
          by_cases hbi : s.buffer_end ≤ s.index
          · rw [if_pos hbi]
            dsimp only
            omega
          · rw [if_neg hbi]
  | viewAcc => exact Nat.le_refl _
  | readOrBorrow n =>
      unfold run read_either offset
      dsimp only
      cases hres : s.endIdx n with
      | error e =>
          dsimp only
          omega
      | ok e =>
          obtain ⟨he, _⟩ := endIdx_ok_inv_mut hres
          dsimp only
          omega
  | offsetObs => exact Nat.le_refl _

/-- Offset monotonicity over arbitrary operation sequences. -/
theorem offset_runs_le_mut (s : MutSliceRead) (ops : List SrcOp) :
    s.offset ≤ (s.runs ops).offset := by
  induction ops generalizing s with
  | nil => exact Nat.le_refl _
  | cons op ops ih =>
      exact Nat.le_trans (offset_run_le_mut s op) (ih (s.run op))

end MutSliceRead

namespace IoRead

/-- The channel-transfer step never lowers the offset. -/
theorem transfer_offset_le (s1 : IoRead) (m : Nat) :
    s1.offset ≤ (read_to_buffer.transfer s1 m).2.offset := by
  unfold read_to_buffer.transfer
  dsimp only
  split <;> dsimp only <;> omega

/-- `read_to_buffer` never lowers the offset, on any path. -/
theorem read_to_buffer_offset_le (s : IoRead) (n : Nat) :
    s.offset ≤ (s.read_to_buffer n).2.offset := by
  rcases hch : s.ch with _ | c
  · rw [read_to_buffer_eq_none s n hch]
    exact transfer_offset_le
      { s with scratchCap := max s.scratchCap (s.scratch.length + reserveRequest n) } n
  · by_cases hn : n = 0
    · subst hn
      rw [read_to_buffer_zero_some s c hch]
    · rw [read_to_buffer_eq_some s n c hch hn]
      exact transfer_offset_le
        { s with ch := none, scratch := s.scratch ++ [c],
                 scratchCap := max (max s.scratchCap (s.scratch.length + reserveRequest n)) (s.scratch.length + 1) }
        (n - 1)

/-- Every single operation leaves the offset no smaller. -/
theorem offset_run_le_io (s : IoRead) (op : SrcOp) :
    s.offset ≤ (s.run op).offset := by
  cases op with
  | next =>
      unfold run next next_inner
      dsimp only
      rcases hch : s.ch with _ | c
      · dsimp only
        cases hinp : s.input <;> dsimp only <;> omega
      · dsimp only
        omega
  | peek =>
      unfold run peek next_inner
      dsimp only
      rcases hch : s.ch with _ | c
      · dsimp only
        cases hinp : s.input <;> dsimp only <;> omega
      · dsimp only
        omega
  | discard => exact Nat.le_refl _
  | readFixed n =>
      unfold run read_into
      dsimp only
      split <;> dsimp only <;> omega
  | beginAcc => exact Nat.le_refl _
  | accumulate n => exact read_to_buffer_offset_le s n
  | viewAcc => exact Nat.le_refl _
  | readOrBorrow n =>
      show s.offset ≤ (s.read_either n).2.offset
      rw [read_either_state s n]
      exact read_to_buffer_offset_le (s.clear_buffer) n
  | offsetObs => exact Nat.le_refl _

/-- Offset monotonicity over arbitrary operation sequences. -/
theorem offset_runs_le_io (s : IoRead) (ops : List SrcOp) :
    s.offset ≤ (s.runs ops).offset := by
  induction ops generalizing s with
  | nil => exact Nat.le_refl _
  | cons op ops ih =>
      exact Nat.le_trans (offset_run_le_io s op) (ih (s.run op))

end IoRead

/-! ## Claim theorems -/

/-- Claim C3: on the mutable buffer source, running
`begin_accumulation()`, advancing the cursor by `d1` positions,
`accumulate a`, advancing by `d2` more positions, then `accumulate b`
succeeds (when the region holds enough bytes) and leaves
`view_accumulation()` of length `a + b`, equal to the `a` bytes that sat
at the cursor when the first `accumulate` ran followed by the `b` bytes
that sat at the cursor when the second `accumulate` ran — the two
fragments being non-adjacent in the region whenever `d2 > 0`. -/
theorem claim_c3_mut_accumulate_concat (s : MutSliceRead) (d1 d2 a b : Nat)
    (t1 t3 : MutSliceRead) (r2 r4 : Except Err Unit × MutSliceRead)
    (hus : s.slice.length < USIZE)
    (hfit : s.index + d1 + a + d2 + b ≤ s.slice.length)
    (ht1 : t1 = (s.clear_buffer).discardN d1)
    (hr2 : r2 = t1.read_to_buffer a)
    (ht3 : t3 = r2.2.discardN d2)
    (hr4 : r4 = t3.read_to_buffer b) :
    r2.1 = Except.ok () ∧ r4.1 = Except.ok () ∧
    r4.2.view_buffer.length = a + b ∧
    r4.2.view_buffer
      = (t1.slice.drop t1.index).take a ++ (t3.slice.drop t3.index).take b := by
  subst ht1 hr2 ht3 hr4
  have hswap : ∀ (l : List Nat) (i m : Nat),
      (l.take (i + m)).drop i = (l.drop i).take m := by
    intro l i m
    rw [List.drop_take]
    congr 1
    omega
  rw [show (s.clear_buffer).discardN d1
      = (⟨s.slice, s.index + d1, s.index, s.index⟩ : MutSliceRead) from by
    rw [MutSliceRead.discardN_spec]; rfl]
  obtain ⟨h1ok, h1len, h1idx, h1bs, h1be, h1pre, h1win⟩ :=
    MutSliceRead.read_to_buffer_spec
      (⟨s.slice, s.index + d1, s.index, s.index⟩ : MutSliceRead) a
      (show s.index ≤ s.index + d1 by omega)
      (show s.index + d1 + a ≤ s.slice.length by omega)
      hus
  set t2 : MutSliceRead :=
    ((⟨s.slice, s.index + d1, s.index, s.index⟩ : MutSliceRead).read_to_buffer a).2
    with ht2
  dsimp only at h1len h1idx h1bs h1be h1pre h1win
  rw [MutSliceRead.discardN_spec t2 d2]
  obtain ⟨h2ok, h2len, h2idx, h2bs, h2be, h2pre, h2win⟩ :=
    MutSliceRead.read_to_buffer_spec
      ({ t2 with index := t2.index + d2 } : MutSliceRead) b
      (by dsimp only; omega)
      (by dsimp only; omega)
      (by dsimp only; omega)
  set t4 : MutSliceRead :=
    (({ t2 with index := t2.index + d2 } : MutSliceRead).read_to_buffer b).2
    with ht4
  dsimp only at h2len h2idx h2bs h2be h2pre h2win ⊢
  refine ⟨h1ok, h2ok, ?_, ?_⟩
  · unfold MutSliceRead.view_buffer
    rw [h2bs, h1bs, h2be, h1be]
    simp only [List.length_take, List.length_drop]
    omega
  · unfold MutSliceRead.view_buffer
    rw [h2bs, h1bs, h2be, h1be,
      show s.index + a + b - s.index = a + b by omega,
      List.take_add (t4.slice.drop s.index) a b]
    congr 1
    · calc (t4.slice.drop s.index).take a
          = (t4.slice.take (s.index + a)).drop s.index := (hswap _ _ _).symm
        _ = (t2.slice.take (s.index + a)).drop s.index := by
            rw [h1be] at h2pre
            rw [h2pre]
        _ = (t2.slice.drop s.index).take a := hswap _ _ _
        _ = (s.slice.drop (s.index + d1)).take a := h1win
    · rw [List.drop_drop,
        show s.index + a = s.index + a from rfl]
      rw [h1be] at h2win
      exact h2win

/-- Witness for C3: a five-byte region, one discarded byte before each of
two one-byte accumulates; the view is the two non-adjacent bytes,
concatenated. -/
theorem claim_c3_witness :
    (MutSliceRead.new [10, 20, 30, 40, 50]).slice.length < USIZE ∧
    (MutSliceRead.new [10, 20, 30, 40, 50]).index + 1 + 1 + 1 + 1
      ≤ (MutSliceRead.new [10, 20, 30, 40, 50]).slice.length ∧
    (let t1 := ((MutSliceRead.new [10, 20, 30, 40, 50]).clear_buffer).discardN 1
     let r2 := t1.read_to_buffer 1
     let t3 := r2.2.discardN 1
     let r4 := t3.read_to_buffer 1
     r2.1 = Except.ok () ∧ r4.1 = Except.ok () ∧
     r4.2.view_buffer.length = 1 + 1 ∧
     r4.2.view_buffer
       = (t1.slice.drop t1.index).take 1 ++ (t3.slice.drop t3.index).take 1) :=
  ⟨by decide, by decide,
    claim_c3_mut_accumulate_concat (MutSliceRead.new [10, 20, 30, 40, 50]) 1 1 1 1
      _ _ _ _ (by decide) (by decide) rfl rfl rfl rfl⟩

/-- Counterexample to C1 as stated: on the streaming backend, requesting
2 bytes from a channel holding only 1 does fail with end-of-input, but
the offset is not unchanged — the remaining byte is consumed and the
offset advances from 0 to 1. -/
theorem claim_c1_counterexample :
    (IoRead.new [1]).remaining < 2 ∧
    ((IoRead.new [1]).read_to_buffer 2).1
      = Except.error (Err.eofWhileParsingValue 1) ∧
    ¬ (((IoRead.new [1]).read_to_buffer 2).2.offset = (IoRead.new [1]).offset) := by
  decide

/-- Claim C1 (amended): requesting more bytes than remain makes
`read_fixed`, `accumulate` and `read_or_borrow` fail with the
end-of-input condition on every backend; on the two buffer backends the
state (in particular the cursor) is unchanged, while on the streaming
backend the failing call consumes the remaining channel bytes, so its
offset advances by the number of channel bytes consumed. -/
theorem claim_c1_eof_on_overread :
    (∀ (s : SliceRead) (n : Nat), s.slice.length - s.index < n →
       s.read_into n
          = (Except.error (Err.eofWhileParsingValue s.slice.length), s) ∧
       s.read_to_buffer n
          = (Except.error (Err.eofWhileParsingValue s.slice.length), s) ∧
       s.read_either n
          = (Except.error (Err.eofWhileParsingValue s.slice.length), s)) ∧
    (∀ (s : MutSliceRead) (n : Nat), s.slice.length - s.index < n →
       s.read_into n
          = (Except.error (Err.eofWhileParsingValue s.slice.length), s) ∧
       s.read_to_buffer n
          = (Except.error (Err.eofWhileParsingValue s.slice.length), s) ∧
       s.read_either n
          = (Except.error (Err.eofWhileParsingValue s.slice.length), s)) ∧
    (∀ (s : IoRead) (n : Nat), s.remaining < n →
       ((s.read_to_buffer n).1
          = Except.error (Err.eofWhileParsingValue (s.offset + s.input.length)) ∧
        (s.read_to_buffer n).2.offset = s.offset + s.input.length) ∧
       ((s.read_either n).1
          = Except.error (Err.eofWhileParsingValue (s.offset + s.input.length)) ∧
        (s.read_either n).2.offset = s.offset + s.input.length) ∧
       ((s.read_into n).1
          = Except.error (Err.eofWhileParsingValue (s.offset + s.input.length)) ∧
        (s.read_into n).2.offset = s.offset + s.input.length)) := by
  refine ⟨?_, ?_, ?_⟩
  · intro s n h
    have hx : s.slice.length < s.index + n := by omega
    exact ⟨by unfold SliceRead.read_into; rw [SliceRead.endIdx_err_sl s n hx],
           by unfold SliceRead.read_to_buffer; rw [SliceRead.endIdx_err_sl s n hx],
           by unfold SliceRead.read_either; rw [SliceRead.endIdx_err_sl s n hx]⟩
  · intro s n h
    have hx : s.slice.length < s.index + n := by omega
    exact ⟨by unfold MutSliceRead.read_into; rw [MutSliceRead.endIdx_err_mut s n hx],
           by unfold MutSliceRead.read_to_buffer; rw [MutSliceRead.endIdx_err_mut s n hx],
           by unfold MutSliceRead.read_either; rw [MutSliceRead.endIdx_err_mut s n hx]⟩
  · intro s n h
    have hinp : s.input.length < n := by
      have hle : s.input.length ≤ s.remaining := by
        unfold IoRead.remaining
        omega
      omega
    refine ⟨IoRead.read_to_buffer_short s n h, IoRead.read_either_short s n h, ?_⟩
    rw [IoRead.read_into_short s n hinp]
    exact ⟨rfl, rfl⟩

/-- Witness for C1 (amended): requesting 2 bytes from one-byte sources of
each backend. -/
theorem claim_c1_witness :
    ((SliceRead.new [1]).slice.length - (SliceRead.new [1]).index < 2) ∧
    ((MutSliceRead.new [1]).slice.length - (MutSliceRead.new [1]).index < 2) ∧
    ((IoRead.new [1]).remaining < 2) ∧
    ((SliceRead.new [1]).read_into 2
        = (Except.error (Err.eofWhileParsingValue (SliceRead.new [1]).slice.length),
           SliceRead.new [1]) ∧
     (SliceRead.new [1]).read_to_buffer 2
        = (Except.error (Err.eofWhileParsingValue (SliceRead.new [1]).slice.length),
           SliceRead.new [1]) ∧
     (SliceRead.new [1]).read_either 2
        = (Except.error (Err.eofWhileParsingValue (SliceRead.new [1]).slice.length),
           SliceRead.new [1])) ∧
    ((MutSliceRead.new [1]).read_into 2
        = (Except.error (Err.eofWhileParsingValue (MutSliceRead.new [1]).slice.length),
           MutSliceRead.new [1]) ∧
     (MutSliceRead.new [1]).read_to_buffer 2
        = (Except.error (Err.eofWhileParsingValue (MutSliceRead.new [1]).slice.length),
           MutSliceRead.new [1]) ∧
     (MutSliceRead.new [1]).read_either 2
        = (Except.error (Err.eofWhileParsingValue (MutSliceRead.new [1]).slice.length),
           MutSliceRead.new [1])) ∧
    ((((IoRead.new [1]).read_to_buffer 2).1
        = Except.error (Err.eofWhileParsingValue
            ((IoRead.new [1]).offset + (IoRead.new [1]).input.length)) ∧
      ((IoRead.new [1]).read_to_buffer 2).2.offset
        = (IoRead.new [1]).offset + (IoRead.new [1]).input.length) ∧
     (((IoRead.new [1]).read_either 2).1
        = Except.error (Err.eofWhileParsingValue
            ((IoRead.new [1]).offset + (IoRead.new [1]).input.length)) ∧
      ((IoRead.new [1]).read_either 2).2.offset
        = (IoRead.new [1]).offset + (IoRead.new [1]).input.length) ∧
     (((IoRead.new [1]).read_into 2).1
        = Except.error (Err.eofWhileParsingValue
            ((IoRead.new [1]).offset + (IoRead.new [1]).input.length)) ∧
      ((IoRead.new [1]).read_into 2).2.offset
        = (IoRead.new [1]).offset + (IoRead.new [1]).input.length)) :=
  ⟨by decide, by decide, by decide,
   claim_c1_eof_on_overread.1 (SliceRead.new [1]) 2 (by decide),
   claim_c1_eof_on_overread.2.1 (MutSliceRead.new [1]) 2 (by decide),
   claim_c1_eof_on_overread.2.2 (IoRead.new [1]) 2 (by decide)⟩

/-- Counterexample to C4 as stated: with a pushback byte pending and
`n = 0`, `read_or_borrow` does not signal `Copied` with an empty
accumulation — the pushback byte is pushed into the buffer and the
`n -= 1` underflow is a debug-build panic (modelled as a distinguished
error), not a successful zero-byte read. -/
theorem claim_c4_counterexample :
    ((⟨[5], 1, [], 0, some 9⟩ : IoRead).read_either 0).1
      = Except.error Err.panicOverflow ∧
    ¬ (((⟨[5], 1, [], 0, some 9⟩ : IoRead).read_either 0).1
        = Except.ok Reference.copied) := by
  decide

/-- Claim C4 (amended): for the streaming backend, provided `n ≥ 1`
whenever a pushback byte is pending (with `n = 0` and a pending pushback
byte the `n -= 1` counting that byte toward `n` underflows), the
reservation request passed to the allocator is `min n 16384 ≤ 16` KiB
regardless of `n`; when `n` bytes remain (pushback plus channel),
`read_or_borrow n` signals `Copied`, the accumulation view afterwards is
exactly the next `n` logical bytes (the pending pushback byte counted
toward `n`), of length `n`, and the offset advances by the channel bytes
consumed; when fewer than `n` remain it fails with end-of-input, and the
scratch capacity stays bounded by the old capacity, the 16 KiB cap, and
the bytes actually present — never by `n`. -/
theorem claim_c4_stream_read_or_borrow (s : IoRead) (n : Nat)
    (hn : s.ch.isSome = true → 1 ≤ n) :
    reserveRequest n ≤ 16 * 1024 ∧
    (n ≤ s.remaining →
       (s.read_either n).1 = Except.ok Reference.copied ∧
       (s.read_either n).2.view_buffer = (s.chList ++ s.input).take n ∧
       (s.read_either n).2.view_buffer.length = n ∧
       (s.read_either n).2.offset = s.offset + (n - s.chCount)) ∧
    (s.remaining < n →
       (s.read_either n).1
          = Except.error (Err.eofWhileParsingValue (s.offset + s.input.length)) ∧
       (s.read_either n).2.scratchCap
          ≤ max s.scratchCap (max (16 * 1024) s.remaining)) := by
  refine ⟨by unfold reserveRequest; omega, ?_, ?_⟩
  · intro h
    have hn' : (s.clear_buffer).ch.isSome = true → 1 ≤ n := hn
    have h' : n ≤ (s.clear_buffer).remaining := h
    obtain ⟨h1, h2, h3⟩ := IoRead.read_to_buffer_ok_parts (s.clear_buffer) n hn' h'
    have hlen : ((s.chList ++ s.input).take n).length = n := by
      have hrem := h
      unfold IoRead.remaining at hrem
      simp only [List.length_take, List.length_append, IoRead.chList_length]
      omega
    unfold IoRead.read_either
    rcases hres : (s.clear_buffer).read_to_buffer n with ⟨r, s1⟩
    rw [hres] at h1 h2 h3
    dsimp only at h1 h2 h3
    subst h1
    refine ⟨rfl, ?_, ?_, h3⟩
    · unfold IoRead.view_buffer
      rw [h2]
      rfl
    · unfold IoRead.view_buffer
      rw [h2]
      exact hlen
  · intro h
    refine ⟨(IoRead.read_either_short s n h).1, ?_⟩
    rw [IoRead.read_either_state s n]
    have hcap := IoRead.read_to_buffer_short_cap (s.clear_buffer) n h
    simpa [IoRead.clear_buffer] using hcap

/-- Witness for C4 (amended): both branches at concrete streaming
states — a 2-byte borrow request over channel `[2, 3, 4]` (Copied, view
`[2, 3]`), and a 2-byte request over a one-byte channel (end-of-input,
bounded capacity). -/
theorem claim_c4_witness :
    ((⟨[2, 3, 4], 1, [], 0, none⟩ : IoRead).ch.isSome = true → 1 ≤ 2) ∧
    2 ≤ (⟨[2, 3, 4], 1, [], 0, none⟩ : IoRead).remaining ∧
    (((⟨[2, 3, 4], 1, [], 0, none⟩ : IoRead).read_either 2).1
        = Except.ok Reference.copied ∧
     ((⟨[2, 3, 4], 1, [], 0, none⟩ : IoRead).read_either 2).2.view_buffer
        = (((⟨[2, 3, 4], 1, [], 0, none⟩ : IoRead).chList
            ++ (⟨[2, 3, 4], 1, [], 0, none⟩ : IoRead).input).take 2) ∧
     ((⟨[2, 3, 4], 1, [], 0, none⟩ : IoRead).read_either 2).2.view_buffer.length = 2 ∧
     ((⟨[2, 3, 4], 1, [], 0, none⟩ : IoRead).read_either 2).2.offset
        = (⟨[2, 3, 4], 1, [], 0, none⟩ : IoRead).offset
          + (2 - (⟨[2, 3, 4], 1, [], 0, none⟩ : IoRead).chCount)) ∧
    ((IoRead.new [1]).remaining < 2 ∧
     (((IoRead.new [1]).read_either 2).1
        = Except.error (Err.eofWhileParsingValue
            ((IoRead.new [1]).offset + (IoRead.new [1]).input.length)) ∧
      ((IoRead.new [1]).read_either 2).2.scratchCap
        ≤ max (IoRead.new [1]).scratchCap
            (max (16 * 1024) (IoRead.new [1]).remaining))) :=
  ⟨by decide, by decide,
   (claim_c4_stream_read_or_borrow (⟨[2, 3, 4], 1, [], 0, none⟩ : IoRead) 2
      (by decide)).2.1 (by decide),
   by decide,
   (claim_c4_stream_read_or_borrow (IoRead.new [1]) 2 (by decide)).2.2 (by decide)⟩

/-- Claim C5: on the immutable buffer source, `read_or_borrow n` fails
with end-of-input carrying the region's total length and leaves the state
unchanged when `index + n` exceeds the region length; otherwise it
borrows exactly the `n` region bytes at the cursor and advances the
cursor to `index + n` — it never reports `Copied`. -/
theorem claim_c5_slice_read_or_borrow (s : SliceRead) (n : Nat)
    (hus : s.slice.length < USIZE) :
    (s.slice.length < s.index + n →
      s.read_either n
        = (Except.error (Err.eofWhileParsingValue s.slice.length), s)) ∧
    (s.index + n ≤ s.slice.length →
      s.read_either n
        = (Except.ok (Reference.borrowed ((s.slice.drop s.index).take n)),
           { s with index := s.index + n }) ∧
      ((s.slice.drop s.index).take n).length = n) := by
  constructor
  · intro h
    unfold SliceRead.read_either
    rw [SliceRead.endIdx_err_sl s n h]
  · intro h
    unfold SliceRead.read_either
    rw [SliceRead.endIdx_ok_sl s n h hus]
    refine ⟨rfl, ?_⟩
    simp only [List.length_take, List.length_drop]
    omega

/-- Witness for C5: the spec's own scenario — requesting 5 bytes from a
3-byte region fails with end-of-input at offset 3, with the state
untouched. -/
theorem claim_c5_witness :
    (SliceRead.new [1, 2, 3]).slice.length < USIZE ∧
    (SliceRead.new [1, 2, 3]).slice.length < (SliceRead.new [1, 2, 3]).index + 5 ∧
    (SliceRead.new [1, 2, 3]).read_either 5
      = (Except.error (Err.eofWhileParsingValue (SliceRead.new [1, 2, 3]).slice.length),
         SliceRead.new [1, 2, 3]) :=
  ⟨by decide, by decide,
    (claim_c5_slice_read_or_borrow (SliceRead.new [1, 2, 3]) 5 (by decide)).1 (by decide)⟩

/-- Claim C9: on both buffer sources, when `index + n` overflows the
machine word, the checked addition makes `read_or_borrow`, `accumulate`
and `read_fixed` fail with the end-of-input error and leave the state
unchanged — the cursor never wraps. -/
theorem claim_c9_checked_add_no_wrap (sl : SliceRead) (sm : MutSliceRead)
    (n m : Nat) (hsl : USIZE ≤ sl.index + n) (hsm : USIZE ≤ sm.index + m) :
    (sl.read_either n
        = (Except.error (Err.eofWhileParsingValue sl.slice.length), sl) ∧
     sl.read_to_buffer n
        = (Except.error (Err.eofWhileParsingValue sl.slice.length), sl) ∧
     sl.read_into n
        = (Except.error (Err.eofWhileParsingValue sl.slice.length), sl)) ∧
    (sm.read_either m
        = (Except.error (Err.eofWhileParsingValue sm.slice.length), sm) ∧
     sm.read_to_buffer m
        = (Except.error (Err.eofWhileParsingValue sm.slice.length), sm) ∧
     sm.read_into m
        = (Except.error (Err.eofWhileParsingValue sm.slice.length), sm)) := by
  refine ⟨⟨?_, ?_, ?_⟩, ⟨?_, ?_, ?_⟩⟩
  · unfold SliceRead.read_either
    rw [SliceRead.endIdx_overflow_sl sl n hsl]
  · unfold SliceRead.read_to_buffer
    rw [SliceRead.endIdx_overflow_sl sl n hsl]
  · unfold SliceRead.read_into
    rw [SliceRead.endIdx_overflow_sl sl n hsl]
  · unfold MutSliceRead.read_either
    rw [MutSliceRead.endIdx_overflow_mut sm m hsm]
  · unfold MutSliceRead.read_to_buffer
    rw [MutSliceRead.endIdx_overflow_mut sm m hsm]
  · unfold MutSliceRead.read_into
    rw [MutSliceRead.endIdx_overflow_mut sm m hsm]

/-- Witness for C9: a request of `2 ^ 64` bytes at cursor 0 of an empty
region fails with end-of-input on both buffer sources, state unchanged. -/
theorem claim_c9_witness :
    USIZE ≤ (SliceRead.new []).index + USIZE ∧
    USIZE ≤ (MutSliceRead.new []).index + USIZE ∧
    ((SliceRead.new []).read_either USIZE
        = (Except.error (Err.eofWhileParsingValue (SliceRead.new []).slice.length),
           SliceRead.new []) ∧
     (SliceRead.new []).read_to_buffer USIZE
        = (Except.error (Err.eofWhileParsingValue (SliceRead.new []).slice.length),
           SliceRead.new []) ∧
     (SliceRead.new []).read_into USIZE
        = (Except.error (Err.eofWhileParsingValue (SliceRead.new []).slice.length),
           SliceRead.new [])) ∧
    ((MutSliceRead.new []).read_either USIZE
        = (Except.error (Err.eofWhileParsingValue (MutSliceRead.new []).slice.length),
           MutSliceRead.new []) ∧
     (MutSliceRead.new []).read_to_buffer USIZE
        = (Except.error (Err.eofWhileParsingValue (MutSliceRead.new []).slice.length),
           MutSliceRead.new []) ∧
     (MutSliceRead.new []).read_into USIZE
        = (Except.error (Err.eofWhileParsingValue (MutSliceRead.new []).slice.length),
           MutSliceRead.new [])) := by
  refine ⟨by decide, by decide, ?_⟩
  exact claim_c9_checked_add_no_wrap (SliceRead.new []) (MutSliceRead.new [])
    USIZE USIZE (by decide) (by decide)

/-- Counterexample to C6 as stated: in a streaming-source state where a
peeked byte is already pending (reached by one prior `peek`), a byte
still remains, `peek` then `next` both return it, yet the value of
`offset()` does not advance at all over the pair — it had already been
counted when the byte was physically read. -/
theorem claim_c6_counterexample :
    0 < (⟨[5], 1, [], 0, some 9⟩ : IoRead).remaining ∧
    ((⟨[5], 1, [], 0, some 9⟩ : IoRead).peek).1
      = (((⟨[5], 1, [], 0, some 9⟩ : IoRead).peek).2.next).1 ∧
    ¬ ((((⟨[5], 1, [], 0, some 9⟩ : IoRead).peek).2.next).2.offset
        = (⟨[5], 1, [], 0, some 9⟩ : IoRead).offset + 1) := by decide

/-- Claim C6 (amended): `peek` followed by `next` returns the same byte
on every backend whenever a byte remains; the offset advances by exactly
one on both buffer backends, and on the streaming backend whenever no
pushback byte was pending; with a pending pushback byte the streaming
backend's offset is unchanged over the pair (that byte was already
counted when it was physically read). -/
theorem claim_c6_peek_then_next :
    (∀ s : SliceRead, s.index < s.slice.length →
       (s.peek).1 = ((s.peek).2.next).1 ∧ (s.peek).1.isSome = true ∧
       ((s.peek).2.next).2.offset = s.offset + 1) ∧
    (∀ s : MutSliceRead, s.index < s.slice.length →
       (s.peek).1 = ((s.peek).2.next).1 ∧ (s.peek).1.isSome = true ∧
       ((s.peek).2.next).2.offset = s.offset + 1) ∧
    (∀ (s : IoRead) (b : Nat) (rest : List Nat),
       s.ch = none → s.input = b :: rest →
       (s.peek).1 = some b ∧ ((s.peek).2.next).1 = some b ∧
       ((s.peek).2.next).2.offset = s.offset + 1) ∧
    (∀ (s : IoRead) (c : Nat), s.ch = some c →
       (s.peek).1 = some c ∧ ((s.peek).2.next).1 = some c ∧
       ((s.peek).2.next).2.offset = s.offset) := by
  refine ⟨?_, ?_, ?_, ?_⟩
  · intro s h
    simp [SliceRead.peek, SliceRead.next, SliceRead.offset, h]
  · intro s h
    simp [MutSliceRead.peek, MutSliceRead.next, MutSliceRead.offset, h]
  · intro s b rest hch hinp
    simp [IoRead.peek, IoRead.next, IoRead.next_inner, hch, hinp]
  · intro s c hch
    simp [IoRead.peek, IoRead.next, hch]

/-- Witness for C6 (amended), exercising all four clauses at concrete
states. -/
theorem claim_c6_witness :
    ((SliceRead.new [3, 4]).index < (SliceRead.new [3, 4]).slice.length ∧
      (((SliceRead.new [3, 4]).peek).1 = (((SliceRead.new [3, 4]).peek).2.next).1 ∧
       ((SliceRead.new [3, 4]).peek).1.isSome = true ∧
       (((SliceRead.new [3, 4]).peek).2.next).2.offset = (SliceRead.new [3, 4]).offset + 1)) ∧
    ((MutSliceRead.new [3, 4]).index < (MutSliceRead.new [3, 4]).slice.length ∧
      (((MutSliceRead.new [3, 4]).peek).1 = (((MutSliceRead.new [3, 4]).peek).2.next).1 ∧
       ((MutSliceRead.new [3, 4]).peek).1.isSome = true ∧
       (((MutSliceRead.new [3, 4]).peek).2.next).2.offset = (MutSliceRead.new [3, 4]).offset + 1)) ∧
    (((IoRead.new [3, 4]).peek).1 = some 3 ∧
     (((IoRead.new [3, 4]).peek).2.next).1 = some 3 ∧
     (((IoRead.new [3, 4]).peek).2.next).2.offset = (IoRead.new [3, 4]).offset + 1) ∧
    (((⟨[5], 1, [], 0, some 9⟩ : IoRead).peek).1 = some 9 ∧
     (((⟨[5], 1, [], 0, some 9⟩ : IoRead).peek).2.next).1 = some 9 ∧
     (((⟨[5], 1, [], 0, some 9⟩ : IoRead).peek).2.next).2.offset
        = (⟨[5], 1, [], 0, some 9⟩ : IoRead).offset) :=
  ⟨⟨by decide, claim_c6_peek_then_next.1 (SliceRead.new [3, 4]) (by decide)⟩,
   ⟨by decide, (claim_c6_peek_then_next.2.1) (MutSliceRead.new [3, 4]) (by decide)⟩,
   (claim_c6_peek_then_next.2.2.1) (IoRead.new [3, 4]) 3 [4] rfl rfl,
   (claim_c6_peek_then_next.2.2.2) (⟨[5], 1, [], 0, some 9⟩ : IoRead) 9 rfl⟩

/-- Counterexample to C7 as stated: on a freshly constructed streaming
source (no byte peeked), `discard` leaves the state — in particular both
the physical offset and the logical position — completely unchanged; it
does not advance the cursor by one. -/
theorem claim_c7_counterexample :
    (IoRead.new [1, 2]).discard = IoRead.new [1, 2] ∧
    ¬ ((IoRead.new [1, 2]).discard.pos = (IoRead.new [1, 2]).pos + 1) ∧
    ¬ ((IoRead.new [1, 2]).discard.offset = (IoRead.new [1, 2]).offset + 1) := by
  decide

/-- Claim C7 (amended): `discard` advances the cursor by exactly one on
both buffer backends in every state; on the streaming backend it
consumes the pending pushback byte — advancing the logical position
(offset minus pending-byte count) by one while leaving the physical
offset unchanged — when a byte was peeked, and is a no-op when none
was. -/
theorem claim_c7_discard :
    (∀ s : SliceRead, s.discard.index = s.index + 1 ∧
       s.discard.offset = s.offset + 1) ∧
    (∀ s : MutSliceRead, s.discard.index = s.index + 1 ∧
       s.discard.offset = s.offset + 1) ∧
    (∀ (s : IoRead) (c : Nat), s.ch = some c → 1 ≤ s.offset →
       s.discard.pos = s.pos + 1 ∧ s.discard.offset = s.offset) ∧
    (∀ s : IoRead, s.ch = none → s.discard = s) := by
  refine ⟨fun s => ⟨rfl, rfl⟩, fun s => ⟨rfl, rfl⟩, ?_, ?_⟩
  · intro s c hch hoff
    unfold IoRead.discard IoRead.pos IoRead.chCount
    rw [hch]
    dsimp only
    constructor
    · omega
    · rfl
  · intro s hch
    unfold IoRead.discard
    rw [show s = { s with ch := s.ch } from rfl, hch]

/-- Witness for C7 (amended), exercising all four clauses at concrete
states. -/
theorem claim_c7_witness :
    ((SliceRead.new [1]).discard.index = (SliceRead.new [1]).index + 1 ∧
     (SliceRead.new [1]).discard.offset = (SliceRead.new [1]).offset + 1) ∧
    ((MutSliceRead.new [1]).discard.index = (MutSliceRead.new [1]).index + 1 ∧
     (MutSliceRead.new [1]).discard.offset = (MutSliceRead.new [1]).offset + 1) ∧
    ((⟨[5], 1, [], 0, some 9⟩ : IoRead).discard.pos
        = (⟨[5], 1, [], 0, some 9⟩ : IoRead).pos + 1 ∧
     (⟨[5], 1, [], 0, some 9⟩ : IoRead).discard.offset
        = (⟨[5], 1, [], 0, some 9⟩ : IoRead).offset) ∧
    (IoRead.new [1]).discard = IoRead.new [1] :=
  ⟨claim_c7_discard.1 (SliceRead.new [1]),
   claim_c7_discard.2.1 (MutSliceRead.new [1]),
   claim_c7_discard.2.2.1 (⟨[5], 1, [], 0, some 9⟩ : IoRead) 9 rfl (by decide),
   claim_c7_discard.2.2.2 (IoRead.new [1]) rfl⟩

/-- Claim C10: on the streaming backend, `read_fixed` (`read_into`) goes
straight to the channel and does not consume a pending peeked byte: after
`peek` returned `b`, `read_into` with an `m`-byte buffer fills it with
the `m` channel bytes that follow `b`, the pushback slot still holds `b`,
and a subsequent `next` still returns `b`. -/
theorem claim_c10_read_fixed_preserves_peek (s : IoRead) (b : Nat)
    (rest : List Nat) (m : Nat)
    (hch : s.ch = none) (hinp : s.input = b :: rest) (hm : m ≤ rest.length) :
    (s.peek).1 = some b ∧
    ((s.peek).2.read_into m).1 = Except.ok (rest.take m) ∧
    ((s.peek).2.read_into m).2.ch = some b ∧
    (((s.peek).2.read_into m).2.next).1 = some b := by
  unfold IoRead.peek IoRead.next_inner
  rw [hch, hinp]
  dsimp only
  unfold IoRead.read_into
  dsimp only
  rw [show ((rest.take m).length = m) from by simp only [List.length_take]; omega]
  rw [if_pos rfl]
  dsimp only
  exact ⟨rfl, rfl, rfl, rfl⟩

/-- Claim C8: on every backend, the offset is monotonically
non-decreasing over any sequence of capability operations, failing ones
included — starting from any state, running any operation sequence never
lowers the value `offset()` returns. -/
theorem claim_c8_offset_monotone :
    (∀ (s : SliceRead) (ops : List SrcOp), s.offset ≤ (s.runs ops).offset) ∧
    (∀ (s : MutSliceRead) (ops : List SrcOp), s.offset ≤ (s.runs ops).offset) ∧
    (∀ (s : IoRead) (ops : List SrcOp), s.offset ≤ (s.runs ops).offset) :=
  ⟨SliceRead.offset_runs_le_sl, MutSliceRead.offset_runs_le_mut, IoRead.offset_runs_le_io⟩

/-- Counterexample to C2 as stated: from a freshly constructed mutable
buffer source over an empty region, the one-operation sequence
`[discard]` — reachable, since `discard` increments the cursor
unconditionally — produces a state whose cursor exceeds the region
length, violating the invariant. -/
theorem claim_c2_counterexample :
    ¬ (MutSliceRead.runs (MutSliceRead.new []) [SrcOp.discard]).Inv := by
  decide

/-- Claim C2 (amended): a freshly constructed mutable buffer source
satisfies `buffer_start ≤ buffer_end ≤ index ≤ region length`, and every
capability operation preserves the invariant, except that `discard` —
which increments the cursor unconditionally — preserves it only when a
byte remains (that is, when used within its contract, after a successful
`peek`). -/
theorem claim_c2_mut_invariant :
    (∀ l : List Nat, (MutSliceRead.new l).Inv) ∧
    (∀ (s : MutSliceRead) (op : SrcOp), s.Inv →
       (op = SrcOp.discard → s.index < s.slice.length) →
       (s.run op).Inv) := by
  constructor
  · intro l
    simp [MutSliceRead.new, MutSliceRead.Inv]
  · intro s op hInv hdis
    obtain ⟨h1, h2, h3⟩ := hInv
    cases op with
    | next =>
        unfold MutSliceRead.run MutSliceRead.next
        dsimp only
        by_cases h : s.index < s.slice.length
        · rw [if_pos h]
          exact ⟨h1, by dsimp only; omega, by dsimp only; omega⟩
        · rw [if_neg h]
          exact ⟨h1, h2, h3⟩
    | peek =>
        unfold MutSliceRead.run MutSliceRead.peek
        dsimp only
        by_cases h : s.index < s.slice.length
        · rw [if_pos h]
          exact ⟨h1, h2, h3⟩
        · rw [if_neg h]
          exact ⟨h1, h2, h3⟩
    | discard =>
        have h4 := hdis rfl
        exact ⟨h1, by dsimp only [MutSliceRead.run, MutSliceRead.discard]; omega,
          by dsimp only [MutSliceRead.run, MutSliceRead.discard]; omega⟩
    | readFixed n =>
        unfold MutSliceRead.run MutSliceRead.read_into
        dsimp only
        cases hres : s.endIdx n with
        | error e => exact ⟨h1, h2, h3⟩
        | ok e =>
            obtain ⟨he, hel⟩ := MutSliceRead.endIdx_ok_inv_mut hres
            exact ⟨h1, by dsimp only; omega, by dsimp only; omega⟩
    | beginAcc =>
        exact ⟨Nat.le_refl _, by dsimp only [MutSliceRead.run, MutSliceRead.clear_buffer]; omega,
          by dsimp only [MutSliceRead.run, MutSliceRead.clear_buffer]; omega⟩
    | accumulate n =>
        unfold MutSliceRead.run MutSliceRead.read_to_buffer
        dsimp only
        cases hres : s.endIdx n with
        | error e => exact ⟨h1, h2, h3⟩
        | ok e =>
            obtain ⟨he, hel⟩ := MutSliceRead.endIdx_ok_inv_mut hres
            dsimp only
            by_cases hbi : s.buffer_end ≤ s.index
            · rw [if_pos hbi]
              have hlen := rotateSeg_length
                (l := s.slice) (a := s.buffer_end) (b := e)
                (s.index - s.buffer_end) (by omega) (by omega)
              refine ⟨by dsimp only; omega, by dsimp only; omega, ?_⟩
              dsimp only
              rw [hlen]
              omega
            · rw [if_neg hbi]
              exact ⟨h1, h2, h3⟩
    | viewAcc => exact ⟨h1, h2, h3⟩
    | readOrBorrow n =>
        unfold MutSliceRead.run MutSliceRead.read_either
        dsimp only
        cases hres : s.endIdx n with
        | error e => exact ⟨h1, h2, h3⟩
        | ok e =>
            obtain ⟨he, hel⟩ := MutSliceRead.endIdx_ok_inv_mut hres
            exact ⟨Nat.le_refl _, by dsimp only; omega, by dsimp only; omega⟩
    | offsetObs => exact ⟨h1, h2, h3⟩

/-- Witness for C2 (amended): the invariant holds for a fresh two-byte
source and is preserved by an in-contract `discard` and by a one-byte
`accumulate` from that state. -/
theorem claim_c2_witness :
    (MutSliceRead.new [1, 2]).Inv ∧
    ((MutSliceRead.new [1, 2]).Inv ∧
     (SrcOp.discard = SrcOp.discard →
        (MutSliceRead.new [1, 2]).index < (MutSliceRead.new [1, 2]).slice.length) ∧
     ((MutSliceRead.new [1, 2]).run SrcOp.discard).Inv) ∧
    ((MutSliceRead.new [1, 2]).run (SrcOp.accumulate 1)).Inv :=
  ⟨claim_c2_mut_invariant.1 [1, 2],
   ⟨claim_c2_mut_invariant.1 [1, 2], fun _ => by decide,
    claim_c2_mut_invariant.2 (MutSliceRead.new [1, 2]) SrcOp.discard
      (claim_c2_mut_invariant.1 [1, 2]) (fun _ => by decide)⟩,
   claim_c2_mut_invariant.2 (MutSliceRead.new [1, 2]) (SrcOp.accumulate 1)
     (claim_c2_mut_invariant.1 [1, 2]) (fun h => by cases h)⟩

/-- Witness for C10: channel `[7, 8, 9]`, `peek` returns 7, a 2-byte
`read_into` fills `[8, 9]`, and `next` still returns 7. -/
theorem claim_c10_witness :
    (IoRead.new [7, 8, 9]).ch = none ∧
    (IoRead.new [7, 8, 9]).input = 7 :: [8, 9] ∧
    2 ≤ ([8, 9] : List Nat).length ∧
    (((IoRead.new [7, 8, 9]).peek).1 = some 7 ∧
     (((IoRead.new [7, 8, 9]).peek).2.read_into 2).1
        = Except.ok (([8, 9] : List Nat).take 2) ∧
     (((IoRead.new [7, 8, 9]).peek).2.read_into 2).2.ch = some 7 ∧
     ((((IoRead.new [7, 8, 9]).peek).2.read_into 2).2.next).1 = some 7) :=
  ⟨rfl, rfl, by decide,
    claim_c10_read_fixed_preserves_peek (IoRead.new [7, 8, 9]) 7 [8, 9] 2
      rfl rfl (by decide)⟩

end CborRead

